import Mathlib

/-!
Verification development for the devlog CLI (git-history summarizer).

The TypeScript sources are shallowly embedded: JavaScript string-level
operations (`split`, `trim`, `indexOf`, `includes`, `startsWith`,
`toLowerCase`, regex replacement) are modelled as executable functions over
`List Char` / `String`; the external subprocesses (git, the Copilot CLI) are
modelled as explicit oracle parameters, so that "the function does not invoke
the subprocess" is expressed as independence from the oracle, and "the
subprocess failed" as the oracle returning `none`.
-/

namespace Devlog

/-! ## JavaScript string primitives, modelled over `List Char` -/

/-- The whitespace characters relevant to `String.prototype.trim` here
(space, newline, tab, carriage return). -/
def isJsWS (c : Char) : Bool := c = ' ' || c = '\n' || c = '\t' || c = '\r'

/-- Drop trailing whitespace. -/
def dropTrailingWS (l : List Char) : List Char :=
  (l.reverse.dropWhile isJsWS).reverse

/-- Model of `String.prototype.trim`: drop trailing, then leading whitespace. -/
def jsTrimList (l : List Char) : List Char :=
  (dropTrailingWS l).dropWhile isJsWS

/-- `trim` on `String`. -/
def jsTrimStr (s : String) : String := ⟨jsTrimList s.data⟩

/-- Model of `String.prototype.includes` (substring occurrence). -/
def listIncludes (l sub : List Char) : Bool := decide (sub <:+: l)

/-- Model of `String.prototype.startsWith`. -/
def jsStartsWith (s pre : String) : Bool := pre.data.isPrefixOf s.data

/-- Model of `String.prototype.toLowerCase` (ASCII case mapping, as in
`Char.toLower`), character by character. -/
def jsToLower (s : String) : String := ⟨s.data.map Char.toLower⟩

/-- Model of `String.prototype.indexOf`: index of the first occurrence of
`sub`, `none` when there is none (JS returns `-1`). -/
def listIndexOf (sub : List Char) : List Char → Option Nat
  | [] => if sub.isPrefixOf ([] : List Char) then some 0 else none
  | c :: t => if sub.isPrefixOf (c :: t) then some 0 else (listIndexOf sub t).map (· + 1)

/-- Model of `Array.prototype.join(sep)`. -/
def joinSep (sep : String) : List String → String
  | [] => ""
  | [x] => x
  | x :: y :: t => x ++ sep ++ joinSep sep (y :: t)

/-- Concatenation of a list of strings (used to model `+=` accumulation). -/
def joinAll : List String → String
  | [] => ""
  | x :: t => x ++ joinAll t

/-- Model of `String.prototype.split(sep)` for a single-character separator:
`acc` holds the (reversed) characters of the current field. -/
def splitChar (sep : Char) (acc : List Char) : List Char → List (List Char)
  | [] => [acc.reverse]
  | c :: rest =>
    if c = sep then acc.reverse :: splitChar sep [] rest
    else splitChar sep (c :: acc) rest

/-! ## Data model (`src/git.ts`) -/

/-- `CommitInfo` of `src/git.ts`. -/
structure CommitInfo where
  hash : String
  hashShort : String
  date : String
  message : String
  body : String
  author : String
  email : String
  filesChanged : List String
  diff : String
deriving DecidableEq

/-- `CommitGroup` of `src/git.ts`. -/
structure CommitGroup where
  label : String
  commits : List CommitInfo
deriving DecidableEq

/-- A commit with only its message relevant (for concrete examples). -/
def mkCommit (message : String) : CommitInfo :=
  ⟨"", "", "", message, "", "", "", [], ""⟩

/-- A commit with only its date relevant (for concrete examples). -/
def mkDatedCommit (date : String) : CommitInfo :=
  ⟨"", "", date, "", "", "", "", [], ""⟩

/-! ## Commit grouper (`groupCommitsByDate`, `src/git.ts`)

The date-fns helpers (`format(parseISO(d), 'yyyy-MM-dd')`, its
`'EEEE, MMMM d, yyyy'` label variant) and `new Date(d).getTime()` are external
library calls, passed in as the functions `dateKey`, `labelOf` and `timeOf`. -/

/-- One step of building the insertion-ordered `Map<string, CommitInfo[]>`:
append `c` to the entry with key `k`, or add a new entry at the end. -/
def insertByKey (k : String) (c : CommitInfo) :
    List (String × List CommitInfo) → List (String × List CommitInfo)
  | [] => [(k, [c])]
  | (k', cs) :: rest =>
    if k' = k then (k', cs ++ [c]) :: rest else (k', cs) :: insertByKey k c rest

/-- The grouping loop of `groupCommitsByDate`: a JS `Map` with insertion-order
iteration, modelled as an association list. -/
def buildGroups (dateKey : String → String) (commits : List CommitInfo) :
    List (String × List CommitInfo) :=
  commits.foldl (fun m c => insertByKey (dateKey c.date) c m) []

/-- `groupCommits[0].date` (every built group is nonempty; `""` is unreachable). -/
def firstCommitDate : List CommitInfo → String
  | [] => ""
  | c :: _ => c.date

/-- `groupCommitsByDate` of `src/git.ts`: group by calendar-date key in first-seen
order, label each group from its first commit, then sort groups by the first
commit's timestamp, most recent first (the JS comparator
`(a, b) => time(b.first) - time(a.first)`, with a stable sort). -/
def groupCommitsByDate (dateKey labelOf : String → String) (timeOf : String → Int)
    (commits : List CommitInfo) : List CommitGroup :=
  ((buildGroups dateKey commits).map
      (fun kv => CommitGroup.mk (labelOf (firstCommitDate kv.2)) kv.2)).mergeSort
    (fun a b => decide (timeOf (firstCommitDate b.commits) ≤ timeOf (firstCommitDate a.commits)))

/-! ## Repository name (`getRepoName`, `src/git.ts`) -/

/-- The characters after the last `/`, or `none` when there is no `/`. -/
def afterLastSlash : List Char → Option (List Char)
  | [] => none
  | c :: rest =>
    match afterLastSlash rest with
    | some s => some s
    | none => if c = '/' then some rest else none

/-- The lazy group `([^/]+?)(\x2egit)?$` applied to the final path segment:
one trailing `.git` is stripped exactly when what remains is nonempty. -/
def stripGitSuffix (seg : List Char) : List Char :=
  if 4 < seg.length ∧ seg.drop (seg.length - 4) = ".git".data
  then seg.take (seg.length - 4) else seg

/-- Semantics of `url.match` with the regex `/\x2f([^/]+?)(\x2e git)?$/` of
`getRepoName`: the match anchors at the last `/` (the capture cannot contain
`/` and must reach the end), needs at least one character after it, and the
lazy `+?` strips one trailing `.git` when possible. -/
def matchRepoRegex (u : List Char) : Option (List Char) :=
  match afterLastSlash u with
  | some seg => if seg = [] then none else some (stripGitSuffix seg)
  | none => none

/-- The `try` block of `getRepoName`: `remote` is the result of
`git remote get-url origin` (`none` = the call threw). A falsy (empty) remote
or a failed regex match fall through to the directory-name fallback. -/
def remoteRepoName : Option String → Option (List Char)
  | none => none
  | some remote =>
    if remote.data = [] then none else matchRepoRegex (jsTrimList remote.data)

/-- The fallback of `getRepoName`: `root.trim().split('/').pop() || 'unknown'`
for the working-tree root path. -/
def dirBase (root : String) : String :=
  match (splitChar '/' [] (jsTrimList root.data)).getLast? with
  | some seg => if seg = [] then "unknown" else ⟨seg⟩
  | none => "unknown"

/-- `getRepoName` of `src/git.ts`, over the git oracle results `remote`
(origin remote URL, `none` = no remote) and `root` (working-tree root path). -/
def getRepoName (remote : Option String) (root : String) : String :=
  match remoteRepoName remote with
  | some name => ⟨name⟩
  | none => dirBase root

/-! ## Configuration (`loadConfig`, `src/config.ts`) -/

/-- The `format` field values. -/
inductive ConfigFormat
  | terminal
  | markdown
  | json
deriving DecidableEq

/-- `DevlogConfig` of `src/config.ts`. -/
structure DevlogConfig where
  format : ConfigFormat
  useCopilot : Bool
  author : Option String
  showFiles : Bool
  showStats : Bool
  maxCommits : Nat
deriving DecidableEq

/-- `DEFAULT_CONFIG` of `src/config.ts`. -/
def DEFAULT_CONFIG : DevlogConfig :=
  { format := ConfigFormat.terminal
    useCopilot := true
    author := none
    showFiles := true
    showStats := true
    maxCommits := 100 }

/-- A parsed user config file: each recognized key may be present or absent
(the result of `JSON.parse` restricted to the recognized keys). -/
structure PartialConfig where
  format : Option ConfigFormat := none
  useCopilot : Option Bool := none
  author : Option (Option String) := none
  showFiles : Option Bool := none
  showStats : Option Bool := none
  maxCommits : Option Nat := none
deriving DecidableEq

/-- The spread `{ ...DEFAULT_CONFIG, ...userConfig }`: present keys override. -/
def mergeConfig (base : DevlogConfig) (user : PartialConfig) : DevlogConfig where
  format := user.format.getD base.format
  useCopilot := user.useCopilot.getD base.useCopilot
  author := user.author.getD base.author
  showFiles := user.showFiles.getD base.showFiles
  showStats := user.showStats.getD base.showStats
  maxCommits := user.maxCommits.getD base.maxCommits

/-- `loadConfig` of `src/config.ts`, over the filesystem oracle: one entry per
searched path, `none` = `fs.existsSync` false, `some none` = the file exists
but `JSON.parse` throws (caught, loop continues), `some (some p)` = the file
exists and parses; the first parsed file is merged over the defaults and
returned. -/
def loadConfig : List (Option (Option PartialConfig)) → DevlogConfig
  | [] => DEFAULT_CONFIG
  | none :: rest => loadConfig rest
  | some none :: rest => loadConfig rest
  | some (some p) :: _ => mergeConfig DEFAULT_CONFIG p

/-! ## Recap range validation (`recap` action, `src/index.ts`) -/

/-- Model of `range.split('..')`: non-overlapping left-to-right scan; `acc`
holds the (reversed) characters of the current field. -/
def splitDotDot : List Char → List Char → List (List Char)
  | acc, [] => [acc.reverse]
  | acc, [c] => [(c :: acc).reverse]
  | acc, c :: c2 :: rest =>
    if c = '.' ∧ c2 = '.' then acc.reverse :: splitDotDot [] rest
    else splitDotDot (c :: acc) (c2 :: rest)

/-- The number of positions at which `..` occurs (overlapping occurrences
counted), to state "the argument contains exactly one `..`". -/
def countDD : List Char → Nat
  | [] => 0
  | [_] => 0
  | c :: c2 :: rest => (if c = '.' ∧ c2 = '.' then 1 else 0) + countDD (c2 :: rest)

/-- The usage error printed by the `recap` action before `process.exit(1)`. -/
def recapUsageError : String :=
  "Invalid range format. Use: devlog recap <from>..<to> (e.g., HEAD~10..HEAD)"

/-- The `recap` action of `src/index.ts` up to the git query: split the range
argument on `..`; anything but exactly two parts is a usage error (exit 1,
modelled as `Except.error`) raised before the git oracle `gitLog` is consulted;
otherwise git is queried with the two parts. -/
def recapAction (gitLog : String → String → List CommitInfo) (range : String) :
    Except String (String × String × List CommitInfo) :=
  match splitDotDot [] range.data with
  | [fromRef, toRef] =>
    Except.ok (⟨fromRef⟩, ⟨toRef⟩, gitLog ⟨fromRef⟩ ⟨toRef⟩)
  | _ => Except.error recapUsageError

/-! ## Local fallback summarizer (`localSummarize`, `src/copilot.ts`) -/

/-- The feature test of `localSummarize` on the lowercased message:
`msg.startsWith('feat') || msg.includes('add') || msg.includes('new')`. -/
def isFeatureMsg (message : String) : Bool :=
  let msg := jsToLower message
  jsStartsWith msg "feat" || listIncludes msg.data "add".data || listIncludes msg.data "new".data

/-- The fix test of `localSummarize` on the lowercased message:
`msg.startsWith('fix') || msg.includes('bug') || msg.includes('patch')`. -/
def isFixMsg (message : String) : Bool :=
  let msg := jsToLower message
  jsStartsWith msg "fix" || listIncludes msg.data "bug".data || listIncludes msg.data "patch".data

/-- The three buckets of `localSummarize`. -/
structure Categories where
  features : List String
  fixes : List String
  other : List String
deriving DecidableEq

/-- The loop body of `localSummarize`: features checked first, then fixes,
else other; the message is pushed onto exactly one bucket. -/
def categorizeStep (cat : Categories) (c : CommitInfo) : Categories :=
  if isFeatureMsg c.message then { cat with features := cat.features ++ [c.message] }
  else if isFixMsg c.message then { cat with fixes := cat.fixes ++ [c.message] }
  else { cat with other := cat.other ++ [c.message] }

/-- The classification loop of `localSummarize`. -/
def categorize (commits : List CommitInfo) : Categories :=
  commits.foldl categorizeStep ⟨[], [], []⟩

/-- One rendered bucket section: the header line, then one `  - msg` bullet
line per message (`header + '\n' + msgs.map(m => '  - ' + m).join('\n')`). -/
def renderSection (header : String) (msgs : List String) : String :=
  header ++ "\n" ++ joinSep "\n" (msgs.map (fun m => "  - " ++ m))

/-- `localSummarize` of `src/copilot.ts`. -/
def localSummarize (commits : List CommitInfo) : String :=
  if commits.length = 0 then "No commits found in this period." else
  let cat := categorize commits
  let summary :=
    (if 0 < cat.features.length then renderSection "Features:" cat.features ++ "\n\n" else "") ++
    (if 0 < cat.fixes.length then renderSection "Fixes:" cat.fixes ++ "\n\n" else "") ++
    (if 0 < cat.other.length then renderSection "Other:" cat.other ++ "\n\n" else "")
  jsTrimStr summary

/-- The nonempty-bucket sections of `localSummarize`, in source order. -/
def sectionsOf (commits : List CommitInfo) : List String :=
  let cat := categorize commits
  (if cat.features ≠ [] then [renderSection "Features:" cat.features] else []) ++
  (if cat.fixes ≠ [] then [renderSection "Fixes:" cat.fixes] else []) ++
  (if cat.other ≠ [] then [renderSection "Other:" cat.other] else [])

/-- Modelled from the spec words for comparison with `localSummarize`: "one
section per nonempty bucket, bullet-per-commit-message, sections separated by
blank lines, overall result trimmed". -/
def localSummarizeSpecStyle (commits : List CommitInfo) : String :=
  jsTrimStr (joinSep "\n\n" (sectionsOf commits))

/-! ## Copilot output sanitation (`cleanCopilotOutput`, `src/copilot.ts`) -/

/-- The regex class `[0-9;]` of the ANSI pattern. -/
def isCsiParam (c : Char) : Bool := (48 ≤ c.toNat ∧ c.toNat ≤ 57) || c.toNat = 59

/-- The regex class `[a-zA-Z]` of the ANSI pattern. -/
def isAlphaAZ (c : Char) : Bool :=
  (65 ≤ c.toNat ∧ c.toNat ≤ 90) || (97 ≤ c.toNat ∧ c.toNat ≤ 122)

/-- Whether the regex `/\x1B\x5b[0-9;]*[a-zA-Z]/` matches at the head of `l`:
ESC, `[`, a (maximal) run of `[0-9;]`, then a letter. Since a letter is not in
`[0-9;]`, a match exists at this position iff the maximal run is followed by a
letter. -/
def ansiAt (l : List Char) : Bool :=
  match l with
  | [] => false
  | c :: cs =>
    decide (c = '\x1B' ∧ cs.head? = some '[' ∧
      ((cs.tail.dropWhile isCsiParam).head?.any isAlphaAZ) = true)

/-- Whether the ANSI regex matches anywhere in `l`. -/
def hasAnsi : List Char → Bool
  | [] => false
  | c :: cs => ansiAt (c :: cs) || hasAnsi cs

/-- Model of `output.replace(/\x1B\x5b[0-9;]*[a-zA-Z]/g, '')`: left-to-right
single-pass scan; at a match the whole sequence is dropped and scanning resumes
after it, at a non-match the character is kept and scanning advances by one. -/
def stripAnsi : List Char → List Char
  | [] => []
  | c :: cs =>
    if _h : c = '\x1B' ∧ cs.head? = some '[' ∧
        ((cs.tail.dropWhile isCsiParam).head?.any isAlphaAZ) = true then
      stripAnsi (cs.tail.dropWhile isCsiParam).tail
    else
      c :: stripAnsi cs
termination_by l => l.length
decreasing_by
  all_goals simp_wf
  all_goals
    first
    | omega
    | exact lt_of_le_of_lt (Nat.sub_le _ _) (Nat.lt_succ_of_le
        (le_trans (List.dropWhile_sublist _).length_le (List.tail_sublist _).length_le))

/-- The usage-footer markers of `cleanCopilotOutput`. -/
def usageMarkers : List (List Char) :=
  ["\nTotal usage est:".data, "\nAPI time spent:".data]

/-- The escape-stripped, carriage-return-free output (`cleaned` before the
marker truncation in `cleanCopilotOutput`). -/
def cleanedOf (output : String) : List Char :=
  (stripAnsi output.data).filter (fun c => c != '\r')

/-- The marker loop of `cleanCopilotOutput`: the earliest found marker index,
starting from `cleaned.length`. -/
def earliestMarker (cleaned : List Char) : Nat :=
  usageMarkers.foldl
    (fun earliest marker =>
      match listIndexOf marker cleaned with
      | some idx => if idx < earliest then idx else earliest
      | none => earliest)
    cleaned.length

/-- `cleanCopilotOutput` of `src/copilot.ts`: strip ANSI escapes, drop `\r`,
truncate from the earliest usage marker, trim. -/
def cleanCopilotOutput (output : String) : String :=
  let cleaned := cleanedOf output
  let e := earliestMarker cleaned
  let truncated := if e < cleaned.length then cleaned.take e else cleaned
  ⟨jsTrimList truncated⟩

/-! ## Copilot CLI calls and the generation operations (`src/copilot.ts`)

The subprocess (`execFileAsync('gh', args, {timeout, maxBuffer})`) is the
oracle `env : List String → Option String`: `some stdout` = the call resolved,
`none` = any failure (tool absent, timeout, nonzero exit) — the promise
rejected and the `catch` branch runs. -/

/-- The Copilot subprocess oracle. -/
def CopilotEnv := List String → Option String

/-- The argument vector of `askCopilot`. -/
def copilotArgs (prompt : String) : List String := ["copilot", "--", "-p", prompt]

/-- `isCopilotCliAvailable` of `src/copilot.ts`: probe with a version argument;
available iff the call resolves and its stdout contains `Copilot CLI`. -/
def isCopilotCliAvailable (env : CopilotEnv) : Bool :=
  match env ["copilot", "--", "--version"] with
  | some stdout => listIncludes stdout.data "Copilot CLI".data
  | none => false

/-- `askCopilot` of `src/copilot.ts`: sanitized stdout on success, `""` on any
failure. -/
def askCopilot (env : CopilotEnv) (prompt : String) : String :=
  match env (copilotArgs prompt) with
  | some stdout => cleanCopilotOutput stdout
  | none => ""

/-- One line of `formatCommitsForPrompt`. -/
def formatCommitEntry (c : CommitInfo) : String :=
  let entry := "- [" ++ c.hashShort ++ "] " ++ c.message
  let entry :=
    if 0 < c.filesChanged.length then
      entry ++ " (files: " ++ joinSep ", " (c.filesChanged.take 5) ++
        (if 5 < c.filesChanged.length then "..." else "") ++ ")"
    else entry
  if c.diff = "" then entry else entry ++ " | " ++ c.diff

/-- `formatCommitsForPrompt` of `src/copilot.ts`. -/
def formatCommitsForPrompt (commits : List CommitInfo) : String :=
  joinSep "\n" (commits.map formatCommitEntry)

/-- `generateDailySummary` of `src/copilot.ts`. -/
def generateDailySummary (env : CopilotEnv) (commits : List CommitInfo)
    (repoName authorName : String) : String :=
  if commits.length = 0 then "" else
  let commitList := formatCommitsForPrompt commits
  let prompt := "Summarize these git commits from today in the \"" ++ repoName ++
    "\" project by " ++ authorName ++
    " as a short developer journal entry. Group related work together. Use bullet points. Be concise but informative:\n\n" ++
    commitList
  askCopilot env prompt

/-- `generateStandupReport` of `src/copilot.ts`: note there is no empty-commit
short-circuit; empty lists are replaced by placeholder text (`x || y` JS
falsy-default) and the CLI is invoked regardless. -/
def generateStandupReport (env : CopilotEnv) (yesterdayCommits todayCommits : List CommitInfo)
    (repoName authorName : String) : String :=
  let yesterdayList := formatCommitsForPrompt yesterdayCommits
  let todayList := formatCommitsForPrompt todayCommits
  let prompt := "Generate a standup report for developer " ++ authorName ++
    " on project \"" ++ repoName ++
    "\". Format it as: YESTERDAY (what was done), TODAY (what\x27s planned based on recent work direction), BLOCKERS (potential issues spotted). Yesterday\x27s commits:\n" ++
    (if yesterdayList = "" then "No commits yesterday" else yesterdayList) ++
    "\n\nToday\x27s commits so far:\n" ++
    (if todayList = "" then "No commits yet today" else todayList)
  askCopilot env prompt

/-- `generateWeeklySummary` of `src/copilot.ts`. -/
def generateWeeklySummary (env : CopilotEnv) (commits : List CommitInfo)
    (repoName authorName : String) : String :=
  if commits.length = 0 then "" else
  let commitList := formatCommitsForPrompt commits
  let prompt := "Summarize this week\x27s git activity in \"" ++ repoName ++ "\" by " ++
    authorName ++
    " as a weekly developer recap. Highlight key accomplishments, areas of focus, and overall progress. Use sections and bullet points:\n\n" ++
    commitList
  askCopilot env prompt

/-- `generateReleaseNotes` of `src/copilot.ts`. -/
def generateReleaseNotes (env : CopilotEnv) (commits : List CommitInfo)
    (repoName fromTag : String) : String :=
  if commits.length = 0 then "" else
  let commitList := formatCommitsForPrompt commits
  let prompt := "Generate release notes for \"" ++ repoName ++
    "\" covering changes since " ++ fromTag ++
    ". Categorize into: Features, Bug Fixes, Improvements, and Breaking Changes. Use markdown formatting. Only include categories that have entries:\n\n" ++
    commitList
  askCopilot env prompt

/-- `generateRangeSummary` of `src/copilot.ts`. -/
def generateRangeSummary (env : CopilotEnv) (commits : List CommitInfo)
    (repoName fromRef toRef : String) : String :=
  if commits.length = 0 then "" else
  let commitList := formatCommitsForPrompt commits
  let prompt := "Summarize the git activity in \"" ++ repoName ++ "\" from " ++
    fromRef ++ " to " ++ toRef ++
    ". Provide a narrative overview of what was accomplished, key changes, and their impact:\n\n" ++
    commitList
  askCopilot env prompt

/-! ## Helper lemmas: trimming -/

theorem dropTrailingWS_append_nn (l : List Char) :
    dropTrailingWS (l ++ ['\n', '\n']) = dropTrailingWS l := by
  simp [dropTrailingWS, List.reverse_append, List.dropWhile_cons, isJsWS]

theorem jsTrim_append_nn (x : String) : jsTrimStr (x ++ "\n\n") = jsTrimStr x := by
  unfold jsTrimStr jsTrimList
  rw [String.data_append]
  rw [show ("\n\n" : String).data = ['\n', '\n'] from rfl]
  rw [dropTrailingWS_append_nn]

/-! ## Helper lemmas: `stripAnsi` equations and structure -/

theorem stripAnsi_nil : stripAnsi [] = [] := by
  rw [stripAnsi]

theorem stripAnsi_cons (c : Char) (cs : List Char) :
    stripAnsi (c :: cs) =
      if c = '\x1B' ∧ cs.head? = some '[' ∧
          ((cs.tail.dropWhile isCsiParam).head?.any isAlphaAZ) = true then
        stripAnsi (cs.tail.dropWhile isCsiParam).tail
      else c :: stripAnsi cs := by
  rw [stripAnsi]
  simp

theorem stripAnsi_of_no_esc {l : List Char} (h : '\x1B' ∉ l) : stripAnsi l = l := by
  induction l with
  | nil => exact stripAnsi_nil
  | cons c cs ih =>
    rw [stripAnsi_cons]
    rw [if_neg]
    · rw [ih (fun hm => h (List.mem_cons_of_mem _ hm))]
    · rintro ⟨hc, -⟩
      exact h (hc ▸ List.mem_cons_self c cs)

/-! ## C1: empty commit sets and the generation operations -/

/-- C1 (amended): the daily, weekly, release and range generation operations
return the empty string on an empty commit set, for every behavior of the
Copilot subprocess — the empty-set result never consults the subprocess
oracle. (The standup report is exempted: see the counterexample.) -/
theorem generate_empty_no_ai_call (env : CopilotEnv) (r a ftag f t : String) :
    generateDailySummary env [] r a = "" ∧
    generateWeeklySummary env [] r a = "" ∧
    generateReleaseNotes env [] r ftag = "" ∧
    generateRangeSummary env [] r f t = "" :=
  ⟨rfl, rfl, rfl, rfl⟩

/-- C1 counterexample: `generateStandupReport` has no empty-commit
short-circuit — with both commit lists empty it still invokes the AI CLI and
returns its (sanitized) output, here `"HELLO"` rather than `""`. -/
theorem generateStandupReport_empty_invokes_cli :
    generateStandupReport (fun _ => some "HELLO") [] [] "repo" "dev" = "HELLO" ∧
    ("HELLO" : String) ≠ "" := by
  constructor
  · show cleanCopilotOutput "HELLO" = "HELLO"
    have hs : stripAnsi "HELLO".data = "HELLO".data :=
      stripAnsi_of_no_esc (by decide)
    unfold cleanCopilotOutput cleanedOf
    rw [hs]
    decide
  · decide

/-! ## C7: subprocess failures are never propagated -/

/-- C7: every failure of the Copilot subprocess (oracle result `none`: tool
absent, timeout, nonzero exit) and every non-matching probe output make
`isCopilotCliAvailable` report `false` and `askCopilot` return `""`; with a
failing subprocess every generation operation returns `""`. Nothing throws:
all the embedded operations are total functions. -/
theorem copilot_failure_not_propagated (env : CopilotEnv) :
    (env ["copilot", "--", "--version"] = none → isCopilotCliAvailable env = false) ∧
    (∀ out, env ["copilot", "--", "--version"] = some out →
      listIncludes out.data "Copilot CLI".data = false → isCopilotCliAvailable env = false) ∧
    (∀ prompt, env (copilotArgs prompt) = none → askCopilot env prompt = "") ∧
    ((∀ args, env args = none) →
      ∀ (commits yc tc : List CommitInfo) (r a ftag f t : String),
        generateDailySummary env commits r a = "" ∧
        generateStandupReport env yc tc r a = "" ∧
        generateWeeklySummary env commits r a = "" ∧
        generateReleaseNotes env commits r ftag = "" ∧
        generateRangeSummary env commits r f t = "") := by
  refine ⟨?_, ?_, ?_, ?_⟩
  · intro h
    unfold isCopilotCliAvailable
    rw [h]
  · intro out h hout
    unfold isCopilotCliAvailable
    rw [h]
    exact hout
  · intro prompt h
    unfold askCopilot
    rw [h]
  · intro hall commits yc tc r a ftag f t
    have hask : ∀ prompt, askCopilot env prompt = "" := by
      intro prompt
      unfold askCopilot
      rw [hall _]
    refine ⟨?_, ?_, ?_, ?_, ?_⟩
    · unfold generateDailySummary
      split
      · rfl
      · exact hask _
    · exact hask _
    · unfold generateWeeklySummary
      split
      · rfl
      · exact hask _
    · unfold generateReleaseNotes
      split
      · rfl
      · exact hask _
    · unfold generateRangeSummary
      split
      · rfl
      · exact hask _

/-- C7 witness: the always-failing subprocess, at concrete inputs. -/
theorem copilot_failure_not_propagated_witness :
    isCopilotCliAvailable (fun _ => none) = false ∧
    askCopilot (fun _ => none) "hi" = "" ∧
    generateDailySummary (fun _ => none) [mkCommit "feat: x"] "r" "a" = "" ∧
    generateStandupReport (fun _ => none) [] [mkCommit "fix: y"] "r" "a" = "" := by
  have h := copilot_failure_not_propagated (fun _ => none)
  have hg := h.2.2.2 (fun _ => rfl) [mkCommit "feat: x"] [] [mkCommit "fix: y"] "r" "a" "t" "f" "g"
  exact ⟨h.1 rfl, h.2.2.1 "hi" rfl, hg.1, hg.2.1⟩

/-! ## C9: configuration loading -/

theorem loadConfig_skip (pre rest : List (Option (Option PartialConfig)))
    (h : ∀ f ∈ pre, f = none ∨ f = some none) :
    loadConfig (pre ++ rest) = loadConfig rest := by
  induction pre with
  | nil => rfl
  | cons f pre ih =>
    have hrest := ih (fun g hg => h g (List.mem_cons_of_mem _ hg))
    rcases h f (List.mem_cons_self _ _) with hf | hf <;> subst hf <;>
      simpa [loadConfig] using hrest

/-- C9: `loadConfig` is total (never throws); when every searched path is
absent or fails to parse it returns the defaults; the first present-and-parsed
file is merged over the defaults, where each present key overrides its default
and each absent key keeps its default. -/
theorem loadConfig_spec (fs : List (Option (Option PartialConfig))) :
    ((∀ f ∈ fs, f = none ∨ f = some none) → loadConfig fs = DEFAULT_CONFIG) ∧
    (∀ pre p rest, fs = pre ++ some (some p) :: rest →
      (∀ f ∈ pre, f = none ∨ f = some none) →
      loadConfig fs = mergeConfig DEFAULT_CONFIG p) ∧
    (∀ p : PartialConfig,
      (p.format = none → (mergeConfig DEFAULT_CONFIG p).format = DEFAULT_CONFIG.format) ∧
      (∀ x, p.format = some x → (mergeConfig DEFAULT_CONFIG p).format = x) ∧
      (p.useCopilot = none → (mergeConfig DEFAULT_CONFIG p).useCopilot = DEFAULT_CONFIG.useCopilot) ∧
      (∀ x, p.useCopilot = some x → (mergeConfig DEFAULT_CONFIG p).useCopilot = x) ∧
      (p.author = none → (mergeConfig DEFAULT_CONFIG p).author = DEFAULT_CONFIG.author) ∧
      (∀ x, p.author = some x → (mergeConfig DEFAULT_CONFIG p).author = x) ∧
      (p.showFiles = none → (mergeConfig DEFAULT_CONFIG p).showFiles = DEFAULT_CONFIG.showFiles) ∧
      (∀ x, p.showFiles = some x → (mergeConfig DEFAULT_CONFIG p).showFiles = x) ∧
      (p.showStats = none → (mergeConfig DEFAULT_CONFIG p).showStats = DEFAULT_CONFIG.showStats) ∧
      (∀ x, p.showStats = some x → (mergeConfig DEFAULT_CONFIG p).showStats = x) ∧
      (p.maxCommits = none → (mergeConfig DEFAULT_CONFIG p).maxCommits = DEFAULT_CONFIG.maxCommits) ∧
      (∀ x, p.maxCommits = some x → (mergeConfig DEFAULT_CONFIG p).maxCommits = x)) := by
  refine ⟨?_, ?_, ?_⟩
  · intro h
    have := loadConfig_skip fs [] h
    simpa using this
  · intro pre p rest hfs hpre
    subst hfs
    rw [loadConfig_skip pre _ hpre]
    rfl
  · intro p
    refine ⟨?_, ?_, ?_, ?_, ?_, ?_, ?_, ?_, ?_, ?_, ?_, ?_⟩ <;>
      first
        | (intro h; simp [mergeConfig, h])
        | (intro x h; simp [mergeConfig, h])

/-- C9 witness: a concrete search list whose first two files are absent or
unparseable and whose third parses with two keys set. -/
theorem loadConfig_spec_witness :
    loadConfig [none, some none] = DEFAULT_CONFIG ∧
    loadConfig [none, some none,
      some (some { useCopilot := some false, maxCommits := some 5 })] =
      mergeConfig DEFAULT_CONFIG { useCopilot := some false, maxCommits := some 5 } ∧
    (mergeConfig DEFAULT_CONFIG { useCopilot := some false, maxCommits := some 5 }).useCopilot
      = false ∧
    (mergeConfig DEFAULT_CONFIG { useCopilot := some false, maxCommits := some 5 }).format
      = DEFAULT_CONFIG.format := by
  refine ⟨?_, ?_, ?_, ?_⟩
  · exact (loadConfig_spec [none, some none]).1 (by decide)
  · exact (loadConfig_spec _).2.1 [none, some none] _ [] rfl (by decide)
  · exact ((loadConfig_spec []).2.2 _).2.2.2.1 false rfl
  · exact ((loadConfig_spec []).2.2 _).1 rfl

/-! ## Helper lemmas: `..`-splitting for the recap range -/

theorem countDD_cons_cons (c c2 : Char) (rest : List Char) :
    countDD (c :: c2 :: rest) =
      (if c = '.' ∧ c2 = '.' then 1 else 0) + countDD (c2 :: rest) := rfl

theorem countDD_cons_le (c : Char) (l : List Char) : countDD l ≤ countDD (c :: l) := by
  cases l with
  | nil => simp [countDD]
  | cons c2 rest =>
    rw [countDD_cons_cons]
    omega

theorem splitDotDot_of_countDD_zero (l : List Char) :
    ∀ acc, countDD l = 0 → splitDotDot acc l = [acc.reverse ++ l] := by
  induction l with
  | nil => intro acc _; simp [splitDotDot]
  | cons c rest ih =>
    intro acc h
    cases rest with
    | nil => simp [splitDotDot]
    | cons c2 rest2 =>
      rw [countDD_cons_cons] at h
      have hcond : ¬(c = '.' ∧ c2 = '.') := by
        intro hc
        rw [if_pos hc] at h
        omega
      rw [splitDotDot, if_neg hcond]
      rw [ih (c :: acc) (by omega)]
      simp

theorem countDD_append_dd_pos (u v : List Char) :
    1 ≤ countDD (u ++ '.' :: '.' :: v) := by
  induction u with
  | nil => rw [List.nil_append, countDD_cons_cons]; simp
  | cons c u' ih =>
    calc 1 ≤ countDD (u' ++ '.' :: '.' :: v) := ih
    _ ≤ countDD (c :: (u' ++ '.' :: '.' :: v)) := countDD_cons_le _ _
    _ = countDD (c :: u' ++ '.' :: '.' :: v) := by simp

theorem splitDotDot_unique (a : List Char) :
    ∀ acc b, countDD (a ++ '.' :: '.' :: b) = 1 →
      splitDotDot acc (a ++ '.' :: '.' :: b) = [acc.reverse ++ a, b] := by
  induction a with
  | nil =>
    intro acc b h
    rw [List.nil_append] at h ⊢
    rw [countDD_cons_cons, if_pos ⟨rfl, rfl⟩] at h
    have hb0 : countDD b = 0 := by
      have := countDD_cons_le '.' b
      omega
    rw [splitDotDot, if_pos ⟨rfl, rfl⟩]
    rw [splitDotDot_of_countDD_zero b [] hb0]
    simp
  | cons c a' ih =>
    intro acc b h
    have hne : a' ++ '.' :: '.' :: b ≠ [] := by simp
    obtain ⟨c2, t2, ht⟩ : ∃ c2 t2, a' ++ '.' :: '.' :: b = c2 :: t2 := by
      cases hx : a' ++ '.' :: '.' :: b with
      | nil => exact absurd hx hne
      | cons c2 t2 => exact ⟨c2, t2, rfl⟩
    rw [List.cons_append, ht] at h ⊢
    rw [countDD_cons_cons] at h
    have hcond : ¬(c = '.' ∧ c2 = '.') := by
      intro hc
      rw [if_pos hc] at h
      have : 1 ≤ countDD (c2 :: t2) := by
        rw [← ht]
        exact countDD_append_dd_pos a' b
      omega
    rw [splitDotDot, if_neg hcond]
    rw [if_neg hcond] at h
    rw [← ht] at h ⊢
    rw [ih (c :: acc) b (by omega)]
    simp

/-! ## C6: recap range validation -/

/-- C6: the recap action validates its range argument before any git query:
the split on `..` must yield exactly two parts. An argument with exactly one
`..` occurrence is parsed into the text before and after it and the git oracle
is queried with those references; any argument whose split does not yield two
parts produces the usage error (exit 1) with the git oracle never consulted
(the result is the error for every oracle). -/
theorem recap_range_validation (gitLog : String → String → List CommitInfo) :
    (recapAction gitLog "abc123..def456" =
      Except.ok ("abc123", "def456", gitLog "abc123" "def456")) ∧
    (recapAction gitLog "abc123" = Except.error recapUsageError) ∧
    (∀ (r : String) (a b : List Char), r.data = a ++ '.' :: '.' :: b →
      countDD r.data = 1 →
      recapAction gitLog r = Except.ok (⟨a⟩, ⟨b⟩, gitLog ⟨a⟩ ⟨b⟩)) ∧
    (∀ r : String, (splitDotDot [] r.data).length ≠ 2 →
      recapAction gitLog r = Except.error recapUsageError) := by
  refine ⟨rfl, rfl, ?_, ?_⟩
  · intro r a b hr h1
    rw [hr] at h1
    unfold recapAction
    rw [hr, splitDotDot_unique a [] b h1]
    rfl
  · intro r hlen
    unfold recapAction
    match hs : splitDotDot [] r.data with
    | [] => rfl
    | [x] => rfl
    | [x, y] => rw [hs] at hlen; simp at hlen
    | x :: y :: z :: t => rfl

/-- C6 witness: the general one-separator case at the concrete range
`x..y`, with the two concrete cases of the claim. -/
theorem recap_range_validation_witness :
    recapAction (fun _ _ => []) "x..y" = Except.ok ("x", "y", []) ∧
    recapAction (fun _ _ => []) "abc123" = Except.error recapUsageError := by
  have h := recap_range_validation (fun _ _ => [])
  exact ⟨h.2.2.1 "x..y" ['x'] ['y'] rfl (by decide), h.2.1⟩

/-! ## C10: empty endpoints pass the recap validation -/

/-- C10: a range argument of the form `..X` or `X..` with exactly one `..`
occurrence splits into two parts, passes validation, and the git query is
attempted with the empty string as the `from` (resp. `to`) reference. -/
theorem recap_empty_endpoint (gitLog : String → String → List CommitInfo) (x : String) :
    (countDD ('.' :: '.' :: x.data) = 1 →
      recapAction gitLog ⟨'.' :: '.' :: x.data⟩ =
        Except.ok ("", x, gitLog "" x)) ∧
    (countDD (x.data ++ ['.', '.']) = 1 →
      recapAction gitLog ⟨x.data ++ ['.', '.']⟩ =
        Except.ok (x, "", gitLog x "")) := by
  constructor
  · intro h
    have hsplit : splitDotDot [] (String.mk ('.' :: '.' :: x.data)).data = [[], x.data] := by
      have := splitDotDot_unique [] [] x.data (by simpa using h)
      simpa using this
    unfold recapAction
    rw [hsplit]
  · intro h
    have hsplit : splitDotDot [] (String.mk (x.data ++ ['.', '.'])).data = [x.data, []] := by
      have h2 : countDD (x.data ++ '.' :: '.' :: []) = 1 := by simpa using h
      have := splitDotDot_unique x.data [] [] h2
      simpa using this
    unfold recapAction
    rw [hsplit]

/-- C10 witness: the concrete arguments `..abc` and `abc..`. -/
theorem recap_empty_endpoint_witness :
    recapAction (fun a b => [mkCommit (a ++ b)]) "..abc" =
      Except.ok ("", "abc", [mkCommit "abc"]) ∧
    recapAction (fun a b => [mkCommit (a ++ b)]) "abc.." =
      Except.ok ("abc", "", [mkCommit "abc"]) := by
  have h := recap_empty_endpoint (fun a b => [mkCommit (a ++ b)]) "abc"
  constructor
  · have := h.1 (by decide)
    simpa using this
  · have := h.2 (by decide)
    simpa using this

/-! ## Helper lemmas: repository-name derivation -/

theorem getLast?_cons_ne_nil {α : Type} (x : α) {l : List α} (h : l ≠ []) :
    (x :: l).getLast? = l.getLast? := by
  cases l with
  | nil => exact absurd rfl h
  | cons y t => exact List.getLast?_cons_cons

theorem afterLastSlash_of_no_slash {b : List Char} (h : '/' ∉ b) :
    afterLastSlash b = none := by
  induction b with
  | nil => rfl
  | cons c rest ih =>
    have hc : c ≠ '/' := by
      rintro rfl
      exact h (List.mem_cons_self _ _)
    rw [afterLastSlash, ih (fun hm => h (List.mem_cons_of_mem _ hm))]
    simp [hc]

theorem afterLastSlash_append {a b : List Char} (h : '/' ∉ b) :
    afterLastSlash (a ++ '/' :: b) = some b := by
  induction a with
  | nil =>
    rw [List.nil_append, afterLastSlash, afterLastSlash_of_no_slash h]
    simp
  | cons c a' ih =>
    rw [List.cons_append, afterLastSlash, ih]

theorem splitChar_of_no_sep {sep : Char} {l : List Char} (h : sep ∉ l) :
    ∀ acc, splitChar sep acc l = [acc.reverse ++ l] := by
  induction l with
  | nil => intro acc; simp [splitChar]
  | cons c rest ih =>
    intro acc
    have hc : c ≠ sep := by
      rintro rfl
      exact h (List.mem_cons_self _ _)
    rw [splitChar, if_neg hc]
    rw [ih (fun hm => h (List.mem_cons_of_mem _ hm))]
    simp

theorem splitChar_ne_nil (sep : Char) (l : List Char) :
    ∀ acc, splitChar sep acc l ≠ [] := by
  induction l with
  | nil => intro acc; simp [splitChar]
  | cons c rest ih =>
    intro acc
    rw [splitChar]
    split
    · simp
    · exact ih _

theorem splitChar_append_getLast {b : List Char} (h : '/' ∉ b) (a : List Char) :
    ∀ acc, (splitChar '/' acc (a ++ '/' :: b)).getLast? = some b := by
  induction a with
  | nil =>
    intro acc
    rw [List.nil_append, splitChar, if_pos rfl, splitChar_of_no_sep h []]
    simp
  | cons c a' ih =>
    intro acc
    rw [List.cons_append, splitChar]
    split
    · rw [getLast?_cons_ne_nil _ (splitChar_ne_nil _ _ _)]
      exact ih []
    · exact ih _

theorem getRepoName_of_match {url : String} {name : List Char} {root : String}
    (h1 : url.data ≠ []) (h2 : matchRepoRegex (jsTrimList url.data) = some name) :
    getRepoName (some url) root = ⟨name⟩ := by
  unfold getRepoName
  rw [show remoteRepoName (some url) =
    (if url.data = [] then none else matchRepoRegex (jsTrimList url.data)) from rfl]
  rw [if_neg h1, h2]

/-! ## C8: repository-name derivation -/

/-- C8: `getRepoName` derives the name from the origin remote URL as the last
path segment with one trailing `.git` stripped (concretely,
`https://github.com/org/myrepo.git` yields `myrepo`; in general any URL
`pre/seg.git` with a slash-free nonempty untrimmed segment yields `seg`);
absent a remote, it returns the base name of the working-tree root (concretely
via `dirBase`: `pre/seg` yields `seg`). -/
theorem getRepoName_spec :
    (∀ root, getRepoName (some "https://github.com/org/myrepo.git") root = "myrepo") ∧
    (∀ (pre seg root : String), '/' ∉ seg.data → seg.data ≠ [] →
      jsTrimList (pre ++ "/" ++ seg ++ ".git").data = (pre ++ "/" ++ seg ++ ".git").data →
      getRepoName (some (pre ++ "/" ++ seg ++ ".git")) root = seg) ∧
    (∀ root, getRepoName none root = dirBase root) ∧
    (∀ (pre seg : String), '/' ∉ seg.data → seg.data ≠ [] →
      jsTrimList (pre ++ "/" ++ seg).data = (pre ++ "/" ++ seg).data →
      getRepoName none (pre ++ "/" ++ seg) = seg) := by
  refine ⟨?_, ?_, ?_, ?_⟩
  · intro root
    rfl
  · intro pre seg root hsl hne htrim
    have hdata : (pre ++ "/" ++ seg ++ ".git").data =
        pre.data ++ '/' :: (seg.data ++ ".git".data) := by
      simp [String.data_append]
    have hnosl : '/' ∉ seg.data ++ ".git".data := by
      intro hm
      rcases List.mem_append.mp hm with hm | hm
      · exact hsl hm
      · simp at hm
    have hlen : (seg.data ++ ".git".data).length = seg.data.length + 4 := by
      simp
    have hseg : stripGitSuffix (seg.data ++ ".git".data) = seg.data := by
      unfold stripGitSuffix
      rw [if_pos]
      · rw [hlen]
        have h4 : seg.data.length + 4 - 4 = seg.data.length := by omega
        rw [h4, List.take_left]
      · constructor
        · rw [hlen]
          have : 0 < seg.data.length := List.length_pos.mpr hne
          omega
        · rw [hlen]
          have h4 : seg.data.length + 4 - 4 = seg.data.length := by omega
          rw [h4, List.drop_left]
    have hmatch : matchRepoRegex (pre.data ++ '/' :: (seg.data ++ ".git".data)) =
        some seg.data := by
      unfold matchRepoRegex
      rw [afterLastSlash_append hnosl]
      show (if (seg.data ++ ".git".data) = [] then none
        else some (stripGitSuffix (seg.data ++ ".git".data))) = some seg.data
      rw [if_neg (by simp), hseg]
    have := @getRepoName_of_match (pre ++ "/" ++ seg ++ ".git") seg.data root
      (by rw [hdata]; simp) (by rw [htrim, hdata]; exact hmatch)
    exact this
  · intro root
    rfl
  · intro pre seg hsl hne htrim
    have hdata : (pre ++ "/" ++ seg).data = pre.data ++ '/' :: seg.data := by
      simp [String.data_append]
    show dirBase (pre ++ "/" ++ seg) = seg
    unfold dirBase
    rw [htrim, hdata]
    rw [splitChar_append_getLast hsl pre.data []]
    show (if seg.data = [] then "unknown" else ⟨seg.data⟩) = seg
    rw [if_neg hne]

/-- C8 witness: the general remote and fallback cases at concrete inputs. -/
theorem getRepoName_spec_witness :
    getRepoName (some "https://github.com/org/myrepo.git") "/w" = "myrepo" ∧
    getRepoName (some ("https://gitlab.com/grp" ++ "/" ++ "tool" ++ ".git")) "/w" = "tool" ∧
    getRepoName none "/home/user/project" = dirBase "/home/user/project" ∧
    getRepoName none ("/home/user" ++ "/" ++ "project") = "project" := by
  have h := getRepoName_spec
  refine ⟨h.1 "/w", ?_, h.2.2.1 "/home/user/project", ?_⟩
  · exact h.2.1 "https://gitlab.com/grp" "tool" "/w" (by decide) (by decide) (by decide)
  · exact h.2.2.2 "/home/user" "project" (by decide) (by decide) (by decide)

/-! ## Helper lemmas: the local summarizer's classification loop -/

theorem categorize_foldl (cs : List CommitInfo) :
    ∀ cat : Categories,
      (cs.foldl categorizeStep cat).features =
        cat.features ++ (cs.filter (fun c => isFeatureMsg c.message)).map (·.message) ∧
      (cs.foldl categorizeStep cat).fixes =
        cat.fixes ++
          (cs.filter (fun c => !isFeatureMsg c.message && isFixMsg c.message)).map (·.message) ∧
      (cs.foldl categorizeStep cat).other =
        cat.other ++
          (cs.filter (fun c => !isFeatureMsg c.message && !isFixMsg c.message)).map (·.message) := by
  induction cs with
  | nil => intro cat; simp
  | cons c rest ih =>
    intro cat
    rw [List.foldl_cons]
    obtain ⟨h1, h2, h3⟩ := ih (categorizeStep cat c)
    by_cases hf : isFeatureMsg c.message
    · simp only [categorizeStep, hf, if_true] at h1 h2 h3
      refine ⟨?_, ?_, ?_⟩ <;>
        simp [h1, h2, h3, List.filter_cons, hf, categorizeStep]
    · by_cases hx : isFixMsg c.message
      · simp only [categorizeStep, hf, hx, if_true, if_false, Bool.false_eq_true,
          reduceIte] at h1 h2 h3
        refine ⟨?_, ?_, ?_⟩ <;>
          simp [h1, h2, h3, List.filter_cons, hf, hx, categorizeStep]
      · simp only [categorizeStep, hf, hx, Bool.false_eq_true, reduceIte] at h1 h2 h3
        refine ⟨?_, ?_, ?_⟩ <;>
          simp [h1, h2, h3, List.filter_cons, hf, hx, categorizeStep]

theorem categorize_char (cs : List CommitInfo) :
    (categorize cs).features =
      (cs.filter (fun c => isFeatureMsg c.message)).map (·.message) ∧
    (categorize cs).fixes =
      (cs.filter (fun c => !isFeatureMsg c.message && isFixMsg c.message)).map (·.message) ∧
    (categorize cs).other =
      (cs.filter (fun c => !isFeatureMsg c.message && !isFixMsg c.message)).map (·.message) := by
  have h := categorize_foldl cs ⟨[], [], []⟩
  simpa [categorize] using h

theorem categorize_not_all_empty (c : CommitInfo) (rest : List CommitInfo) :
    ¬((categorize (c :: rest)).features = [] ∧ (categorize (c :: rest)).fixes = [] ∧
      (categorize (c :: rest)).other = []) := by
  obtain ⟨h1, h2, h3⟩ := categorize_char (c :: rest)
  rintro ⟨e1, e2, e3⟩
  rw [h1, List.map_eq_nil, List.filter_eq_nil] at e1
  rw [h2, List.map_eq_nil, List.filter_eq_nil] at e2
  rw [h3, List.map_eq_nil, List.filter_eq_nil] at e3
  have hf := e1 c (List.mem_cons_self _ _)
  have hx := e2 c (List.mem_cons_self _ _)
  have ho := e3 c (List.mem_cons_self _ _)
  simp at hf
  simp [hf] at hx
  simp [hf, hx] at ho

/-! ## C3: the classification of `localSummarize` -/

/-- C3: the classification loop of `localSummarize` assigns each commit's
message to exactly one bucket — the buckets are the order-preserving filters by
the mutually exclusive conditions "feature test", "not feature and fix test",
"neither" (features checked first, then fixes, else other; all matching
case-insensitive via `toLower`); in particular a message containing both `add`
and `bug` passes the feature test and lands in the features bucket. -/
theorem localSummarize_classification (commits : List CommitInfo) :
    ((categorize commits).features =
      (commits.filter (fun c => isFeatureMsg c.message)).map (·.message)) ∧
    ((categorize commits).fixes =
      (commits.filter (fun c => !isFeatureMsg c.message && isFixMsg c.message)).map
        (·.message)) ∧
    ((categorize commits).other =
      (commits.filter (fun c => !isFeatureMsg c.message && !isFixMsg c.message)).map
        (·.message)) ∧
    (∀ message : String,
      listIncludes (jsToLower message).data "add".data = true →
      listIncludes (jsToLower message).data "bug".data = true →
      isFeatureMsg message = true ∧ isFixMsg message = true ∧
      (categorize [mkCommit message]).features = [message] ∧
      (categorize [mkCommit message]).fixes = [] ∧
      (categorize [mkCommit message]).other = []) := by
  obtain ⟨h1, h2, h3⟩ := categorize_char commits
  refine ⟨h1, h2, h3, ?_⟩
  intro message hadd hbug
  have hfeat : isFeatureMsg message = true := by
    simp [isFeatureMsg, hadd]
  have hfix : isFixMsg message = true := by
    simp [isFixMsg, hbug]
  refine ⟨hfeat, hfix, ?_, ?_, ?_⟩ <;>
    simp [categorize, categorizeStep, mkCommit, hfeat]

/-- C3 witness: the concrete message `Add bugfix` contains both `add` and
`bug` (case-insensitively) and is classified as a feature, not a fix. -/
theorem localSummarize_classification_witness :
    isFeatureMsg "Add bugfix" = true ∧ isFixMsg "Add bugfix" = true ∧
    (categorize [mkCommit "Add bugfix"]).features = ["Add bugfix"] ∧
    (categorize [mkCommit "Add bugfix"]).fixes = [] ∧
    (categorize [mkCommit "Add bugfix"]).other = [] := by
  have h := (localSummarize_classification []).2.2.2 "Add bugfix" (by decide) (by decide)
  exact h

/-! ## Helper lemmas: section rendering of `localSummarize` -/

theorem joinAll_map_nn (a : String) (rest : List String) :
    joinAll ((a :: rest).map (fun s => s ++ "\n\n")) =
      joinSep "\n\n" (a :: rest) ++ "\n\n" := by
  induction rest generalizing a with
  | nil => simp [joinAll, joinSep, String.append_empty]
  | cons b t ih =>
    rw [List.map_cons, joinAll, ih b]
    rw [show joinSep "\n\n" (a :: b :: t) = a ++ "\n\n" ++ joinSep "\n\n" (b :: t) from rfl]
    simp [String.append_assoc]

theorem concat_ite_sections (sF sX sO : String) (F X O : List String) :
    (if 0 < F.length then sF ++ "\n\n" else "") ++
    (if 0 < X.length then sX ++ "\n\n" else "") ++
    (if 0 < O.length then sO ++ "\n\n" else "") =
    joinAll (((if F ≠ [] then [sF] else []) ++ (if X ≠ [] then [sX] else []) ++
      (if O ≠ [] then [sO] else [])).map (fun s => s ++ "\n\n")) := by
  by_cases hF : F = [] <;> by_cases hX : X = [] <;> by_cases hO : O = [] <;>
    simp [hF, hX, hO, List.length_pos, joinAll, String.append_assoc,
      String.append_empty, String.empty_append]

theorem sections_shape (cs : List CommitInfo) :
    sectionsOf cs = [] ∨ ∃ a rest, sectionsOf cs = a :: rest := by
  cases h : sectionsOf cs with
  | nil => exact Or.inl rfl
  | cons a rest => exact Or.inr ⟨a, rest, rfl⟩

theorem sectionsOf_ne_nil {cs : List CommitInfo} (h : cs ≠ []) : sectionsOf cs ≠ [] := by
  obtain ⟨c, rest, rfl⟩ : ∃ c rest, cs = c :: rest := by
    cases cs with
    | nil => exact absurd rfl h
    | cons c rest => exact ⟨c, rest, rfl⟩
  intro he
  apply categorize_not_all_empty c rest
  unfold sectionsOf at he
  by_cases h1 : (categorize (c :: rest)).features = [] <;>
    by_cases h2 : (categorize (c :: rest)).fixes = [] <;>
      by_cases h3 : (categorize (c :: rest)).other = [] <;>
        simp [h1, h2, h3] at he ⊢

/-! ## C4: the rendering of `localSummarize` -/

/-- C4: `localSummarize []` is the fixed no-commits message; on every nonempty
commit list the result equals the spec-style rendering: one section (header
plus one bullet line per message) for each nonempty bucket and none for an
empty bucket, sections separated by blank lines, the whole result trimmed. -/
theorem localSummarize_spec :
    localSummarize [] = "No commits found in this period." ∧
    ∀ cs : List CommitInfo, cs ≠ [] → localSummarize cs = localSummarizeSpecStyle cs := by
  constructor
  · rfl
  · intro cs hne
    have hlen : ¬(cs.length = 0) := by
      simpa [List.length_eq_zero] using hne
    unfold localSummarize localSummarizeSpecStyle
    rw [if_neg hlen]
    show jsTrimStr
      ((if 0 < (categorize cs).features.length then
          renderSection "Features:" (categorize cs).features ++ "\n\n" else "") ++
        (if 0 < (categorize cs).fixes.length then
          renderSection "Fixes:" (categorize cs).fixes ++ "\n\n" else "") ++
        (if 0 < (categorize cs).other.length then
          renderSection "Other:" (categorize cs).other ++ "\n\n" else "")) =
      jsTrimStr (joinSep "\n\n" (sectionsOf cs))
    rw [concat_ite_sections]
    show jsTrimStr (joinAll ((sectionsOf cs).map (fun s => s ++ "\n\n"))) = _
    obtain he | ⟨a, rest, hcons⟩ := sections_shape cs
    · exact absurd he (sectionsOf_ne_nil hne)
    · rw [hcons, joinAll_map_nn, jsTrim_append_nn]

/-- C4 witness: a concrete two-commit list with a feature and an other
commit; the empty-bucket section (fixes) is absent. -/
theorem localSummarize_spec_witness :
    localSummarize [mkCommit "feat: a", mkCommit "misc"] =
      localSummarizeSpecStyle [mkCommit "feat: a", mkCommit "misc"] ∧
    localSummarize [mkCommit "feat: a", mkCommit "misc"] =
      "Features:\n  - feat: a\n\nOther:\n  - misc" := by
  constructor
  · exact localSummarize_spec.2 _ (by simp)
  · rw [localSummarize_spec.2 _ (by simp)]
    decide

/-! ## Helper lemmas: the ANSI scanner -/

theorem ansiAt_cons (c : Char) (cs : List Char) :
    ansiAt (c :: cs) =
      decide (c = '\x1B' ∧ cs.head? = some '[' ∧
        ((cs.tail.dropWhile isCsiParam).head?.any isAlphaAZ) = true) := rfl

theorem ansiAt_false_of_ne {c : Char} (t : List Char) (hc : c ≠ '\x1B') :
    ansiAt (c :: t) = false := by
  simp [ansiAt_cons, hc]

theorem hasAnsi_cons (c : Char) (cs : List Char) :
    hasAnsi (c :: cs) = (ansiAt (c :: cs) || hasAnsi cs) := rfl

theorem hasAnsi_of_no_esc {l : List Char} (h : '\x1B' ∉ l) : hasAnsi l = false := by
  induction l with
  | nil => rfl
  | cons c cs ih =>
    have hc : c ≠ '\x1B' := by
      rintro rfl
      exact h (List.mem_cons_self _ _)
    rw [hasAnsi_cons, ansiAt_false_of_ne _ hc,
      ih (fun hm => h (List.mem_cons_of_mem _ hm))]
    rfl

theorem stripAnsi_sublist (l : List Char) : (stripAnsi l).Sublist l := by
  induction l using stripAnsi.induct with
  | case1 => rw [stripAnsi_nil]
  | case2 c cs h ih =>
    rw [stripAnsi_cons, if_pos h]
    have hX : ((cs.tail.dropWhile isCsiParam).tail).Sublist cs :=
      (List.tail_sublist _).trans ((List.dropWhile_sublist _).trans (List.tail_sublist _))
    exact (ih.trans hX).trans (List.sublist_cons_self c cs)
  | case3 c cs h ih =>
    rw [stripAnsi_cons, if_neg h]
    exact ih.cons₂ c

theorem hasAnsi_stripAnsi (l : List Char) :
    l.count '\x1B' ≤ 1 → hasAnsi (stripAnsi l) = false := by
  induction l using stripAnsi.induct with
  | case1 =>
    intro _
    rw [stripAnsi_nil]
    rfl
  | case2 c cs hcond ih =>
    intro h
    rw [stripAnsi_cons, if_pos hcond]
    obtain ⟨hc, -, -⟩ := hcond
    subst hc
    have hcs : cs.count '\x1B' = 0 := by
      rw [List.count_cons] at h
      simp at h
      omega
    have hX : ((cs.tail.dropWhile isCsiParam).tail).Sublist cs :=
      (List.tail_sublist _).trans ((List.dropWhile_sublist _).trans (List.tail_sublist _))
    have hXc : ((cs.tail.dropWhile isCsiParam).tail).count '\x1B' = 0 :=
      Nat.le_zero.mp (hcs ▸ hX.count_le '\x1B')
    have hnm : '\x1B' ∉ (cs.tail.dropWhile isCsiParam).tail := List.count_eq_zero.mp hXc
    exact hasAnsi_of_no_esc (fun hm => hnm ((stripAnsi_sublist _).subset hm))
  | case3 c cs hcond ih =>
    intro h
    rw [stripAnsi_cons, if_neg hcond]
    rw [hasAnsi_cons]
    have hle : cs.count '\x1B' ≤ (c :: cs).count '\x1B' := by
      rw [List.count_cons]
      omega
    rw [ih (le_trans hle h)]
    by_cases hc : c = '\x1B'
    · subst hc
      have hcs : cs.count '\x1B' = 0 := by
        rw [List.count_cons] at h
        simp at h
        omega
      rw [stripAnsi_of_no_esc (List.count_eq_zero.mp hcs)]
      rw [ansiAt_cons, decide_eq_false hcond]
      rfl
    · rw [ansiAt_false_of_ne _ hc]
      rfl

theorem dropWhile_append_cons {p : Char → Bool} {a : List Char} {x : Char} {t : List Char}
    (h : a.dropWhile p = x :: t) (b : List Char) :
    (a ++ b).dropWhile p = x :: (t ++ b) := by
  induction a with
  | nil => simp at h
  | cons y a' ih =>
    rw [List.dropWhile_cons] at h
    rw [List.cons_append, List.dropWhile_cons]
    by_cases hy : p y
    · rw [if_pos hy] at h
      rw [if_pos hy]
      exact ih h
    · rw [if_neg hy] at h
      rw [if_neg hy]
      injection h with h1 h2
      subst h1
      subst h2
      rfl

theorem ansiAt_append {t b : List Char} (h : ansiAt t = true) : ansiAt (t ++ b) = true := by
  cases t with
  | nil => simp [ansiAt] at h
  | cons c cs =>
    rw [ansiAt_cons] at h
    obtain ⟨hc, hhead, hletter⟩ := of_decide_eq_true h
    subst hc
    cases cs with
    | nil => simp at hhead
    | cons c2 cs2 =>
      simp at hhead
      subst hhead
      obtain ⟨a', ha', hAZ⟩ : ∃ a', (cs2.dropWhile isCsiParam).head? = some a' ∧
          isAlphaAZ a' = true := by
        cases hd : (cs2.dropWhile isCsiParam).head? with
        | none =>
          rw [show (('[' : Char) :: cs2).tail = cs2 from rfl, hd] at hletter
          simp [Option.any] at hletter
        | some a' =>
          rw [show (('[' : Char) :: cs2).tail = cs2 from rfl, hd] at hletter
          simp [Option.any] at hletter
          exact ⟨a', rfl, hletter⟩
      obtain ⟨rest, hrest⟩ : ∃ rest, cs2.dropWhile isCsiParam = a' :: rest := by
        cases hq : cs2.dropWhile isCsiParam with
        | nil => rw [hq] at ha'; simp at ha'
        | cons z r =>
          rw [hq] at ha'
          simp at ha'
          exact ⟨r, by rw [ha']⟩
      rw [show ('\x1B' :: '[' :: cs2) ++ b = '\x1B' :: ('[' :: cs2 ++ b) from rfl]
      rw [ansiAt_cons]
      apply decide_eq_true
      refine ⟨rfl, by simp, ?_⟩
      rw [show (('[' : Char) :: cs2 ++ b).tail = cs2 ++ b from rfl]
      rw [dropWhile_append_cons hrest]
      simp [Option.any, hAZ]

theorem hasAnsi_suffix_iff (l : List Char) :
    hasAnsi l = true ↔ ∃ t, t <:+ l ∧ ansiAt t = true := by
  induction l with
  | nil =>
    constructor
    · intro h
      simp [hasAnsi] at h
    · rintro ⟨t, ht, ha⟩
      rw [List.suffix_nil.mp ht] at ha
      simp [ansiAt] at ha
  | cons c cs ih =>
    rw [hasAnsi_cons]
    constructor
    · intro h
      rcases Bool.or_eq_true_iff.mp h with ha | hcs
      · exact ⟨c :: cs, List.suffix_refl _, ha⟩
      · obtain ⟨t, ht, ha⟩ := ih.mp hcs
        exact ⟨t, ht.trans (List.suffix_cons c cs), ha⟩
    · rintro ⟨t, ht, ha⟩
      rcases List.suffix_cons_iff.mp ht with rfl | ht'
      · rw [ha]
        simp
      · rw [ih.mpr ⟨t, ht', ha⟩]
        simp

theorem hasAnsi_false_of_isInfix {l₁ l₂ : List Char} (hinf : l₁ <:+: l₂)
    (h : hasAnsi l₂ = false) : hasAnsi l₁ = false := by
  by_contra hne
  rw [Bool.not_eq_false] at hne
  obtain ⟨t, ht, ha⟩ := (hasAnsi_suffix_iff l₁).mp hne
  obtain ⟨pre, suf, rfl⟩ := hinf
  obtain ⟨u, rfl⟩ := ht
  have htrue : hasAnsi (pre ++ (u ++ t) ++ suf) = true := by
    apply (hasAnsi_suffix_iff _).mpr
    refine ⟨t ++ suf, ⟨pre ++ u, by simp⟩, ansiAt_append ha⟩
  rw [htrue] at h
  cases h

theorem dropWhile_params_append {params : List Char}
    (h : ∀ p ∈ params, isCsiParam p = true) {a : Char} {v : List Char}
    (ha : isCsiParam a = false) :
    (params ++ a :: v).dropWhile isCsiParam = a :: v := by
  induction params with
  | nil =>
    rw [List.nil_append, List.dropWhile_cons, if_neg (by rw [ha]; simp)]
  | cons q qs ih =>
    rw [List.cons_append, List.dropWhile_cons, if_pos (h q (List.mem_cons_self _ _))]
    exact ih (fun p hp => h p (List.mem_cons_of_mem _ hp))

theorem isCsiParam_false_of_alpha {a : Char} (h : isAlphaAZ a = true) :
    isCsiParam a = false := by
  simp [isAlphaAZ] at h
  simp [isCsiParam]
  omega

theorem hasAnsi_iff_decomposition (l : List Char) :
    hasAnsi l = true ↔ ∃ (u params v : List Char) (a : Char),
      l = u ++ '\x1B' :: '[' :: (params ++ a :: v) ∧
      (∀ p ∈ params, isCsiParam p = true) ∧ isAlphaAZ a = true := by
  rw [hasAnsi_suffix_iff]
  constructor
  · rintro ⟨t, ⟨u, rfl⟩, ha⟩
    cases t with
    | nil => simp [ansiAt] at ha
    | cons c cs =>
      rw [ansiAt_cons] at ha
      obtain ⟨hc, hhead, hletter⟩ := of_decide_eq_true ha
      subst hc
      cases cs with
      | nil => simp at hhead
      | cons c2 cs2 =>
        simp at hhead
        subst hhead
        rw [show (('[' : Char) :: cs2).tail = cs2 from rfl] at hletter
        obtain ⟨a', ha', hAZ⟩ : ∃ a', (cs2.dropWhile isCsiParam).head? = some a' ∧
            isAlphaAZ a' = true := by
          cases hd : (cs2.dropWhile isCsiParam).head? with
          | none => rw [hd] at hletter; simp [Option.any] at hletter
          | some a' =>
            rw [hd] at hletter
            simp [Option.any] at hletter
            exact ⟨a', rfl, hletter⟩
        obtain ⟨rest, hrest⟩ : ∃ rest, cs2.dropWhile isCsiParam = a' :: rest := by
          cases hq : cs2.dropWhile isCsiParam with
          | nil => rw [hq] at ha'; simp at ha'
          | cons z r =>
            rw [hq] at ha'
            simp at ha'
            exact ⟨r, by rw [ha']⟩
        refine ⟨u, cs2.takeWhile isCsiParam, rest, a', ?_, ?_, hAZ⟩
        · have : cs2 = cs2.takeWhile isCsiParam ++ (a' :: rest) := by
            rw [← hrest, List.takeWhile_append_dropWhile]
          rw [← this]
        · intro p hp
          exact List.mem_takeWhile_imp hp
  · rintro ⟨u, params, v, a, rfl, hparams, hAZ⟩
    refine ⟨'\x1B' :: '[' :: (params ++ a :: v), ⟨u, rfl⟩, ?_⟩
    rw [ansiAt_cons]
    apply decide_eq_true
    refine ⟨rfl, rfl, ?_⟩
    rw [show (('[' : Char) :: (params ++ a :: v)).tail = params ++ a :: v from rfl]
    rw [dropWhile_params_append hparams (isCsiParam_false_of_alpha hAZ)]
    simp [Option.any, hAZ]

/-! ## Helper lemmas: `indexOf` and the marker loop -/

theorem listIndexOf_spec (sub : List Char) (l : List Char) :
    (∀ i, listIndexOf sub l = some i →
      sub.isPrefixOf (l.drop i) = true ∧ ∀ j, j < i → sub.isPrefixOf (l.drop j) = false) ∧
    (listIndexOf sub l = none → ∀ j, sub.isPrefixOf (l.drop j) = false) := by
  induction l with
  | nil =>
    constructor
    · intro i h
      rw [listIndexOf] at h
      split at h
      · injection h with h0
        subst h0
        refine ⟨by assumption, fun j hj => absurd hj (Nat.not_lt_zero j)⟩
      · cases h
    · intro h j
      rw [listIndexOf] at h
      split at h
      · cases h
      · next hp =>
        rw [List.drop_nil]
        cases hb : sub.isPrefixOf ([] : List Char) with
        | false => rfl
        | true => exact absurd hb hp
  | cons c t ih =>
    constructor
    · intro i h
      rw [listIndexOf] at h
      split at h
      · injection h with h0
        subst h0
        refine ⟨by assumption, fun j hj => absurd hj (Nat.not_lt_zero j)⟩
      · next hp =>
        obtain ⟨i', hi', rfl⟩ := Option.map_eq_some'.mp h
        obtain ⟨hpre, hmin⟩ := ih.1 i' hi'
        constructor
        · rw [List.drop_succ_cons]
          exact hpre
        · intro j hj
          cases j with
          | zero =>
            rw [List.drop_zero]
            cases hb : sub.isPrefixOf (c :: t) with
            | false => rfl
            | true => exact absurd hb hp
          | succ j' =>
            rw [List.drop_succ_cons]
            exact hmin j' (by omega)
    · intro h j
      rw [listIndexOf] at h
      split at h
      · cases h
      · next hp =>
        have ht : listIndexOf sub t = none := by
          cases hq : listIndexOf sub t with
          | none => rfl
          | some i' => rw [hq] at h; cases h
        cases j with
        | zero =>
          rw [List.drop_zero]
          cases hb : sub.isPrefixOf (c :: t) with
          | false => rfl
          | true => exact absurd hb hp
        | succ j' =>
          rw [List.drop_succ_cons]
          exact ih.2 ht j'

theorem listIndexOf_isSome {sub l : List Char} {j : Nat}
    (h : sub.isPrefixOf (l.drop j) = true) : ∃ i, listIndexOf sub l = some i := by
  cases hq : listIndexOf sub l with
  | none =>
    have := (listIndexOf_spec sub l).2 hq j
    rw [h] at this
    cases this
  | some i => exact ⟨i, rfl⟩

theorem listIndexOf_lt_length {sub l : List Char} {i : Nat} (hne : sub ≠ [])
    (h : listIndexOf sub l = some i) : i < l.length := by
  have hpre := ((listIndexOf_spec sub l).1 i h).1
  have hp : sub <+: l.drop i := List.isPrefixOf_iff_prefix.mp hpre
  by_contra hge
  have hdrop : l.drop i = [] := List.drop_eq_nil_iff_le.mpr (by omega)
  rw [hdrop] at hp
  obtain ⟨t, ht⟩ := hp
  simp at ht
  exact hne ht.1

theorem marker_step_le (cleaned : List Char) (e : Nat) (m : List Char) :
    (match listIndexOf m cleaned with
      | some idx => if idx < e then idx else e
      | none => e) ≤ e := by
  cases listIndexOf m cleaned with
  | none => exact le_refl e
  | some idx =>
    show (if idx < e then idx else e) ≤ e
    split <;> omega

theorem marker_foldl_le_init (cleaned : List Char) (ms : List (List Char)) :
    ∀ e, ms.foldl
      (fun earliest marker =>
        match listIndexOf marker cleaned with
        | some idx => if idx < earliest then idx else earliest
        | none => earliest) e ≤ e := by
  induction ms with
  | nil => intro e; exact le_refl e
  | cons m ms ih =>
    intro e
    rw [List.foldl_cons]
    exact le_trans (ih _) (marker_step_le cleaned e m)

theorem marker_foldl_le_found (cleaned : List Char) (ms : List (List Char)) :
    ∀ e m i, m ∈ ms → listIndexOf m cleaned = some i →
      ms.foldl
        (fun earliest marker =>
          match listIndexOf marker cleaned with
          | some idx => if idx < earliest then idx else earliest
          | none => earliest) e ≤ i := by
  induction ms with
  | nil =>
    intro e m i hm
    cases hm
  | cons m0 ms ih =>
    intro e m i hm hidx
    rw [List.foldl_cons]
    rcases List.mem_cons.mp hm with rfl | hm'
    · refine le_trans (marker_foldl_le_init cleaned ms _) ?_
      rw [hidx]
      show (if i < e then i else e) ≤ i
      split <;> omega
    · exact ih _ m i hm' hidx

theorem earliestMarker_le_length (cleaned : List Char) :
    earliestMarker cleaned ≤ cleaned.length := by
  unfold earliestMarker
  exact marker_foldl_le_init cleaned usageMarkers cleaned.length

theorem earliestMarker_le_occurrence {cleaned m : List Char} {j : Nat}
    (hm : m ∈ usageMarkers) (h : m.isPrefixOf (cleaned.drop j) = true) :
    earliestMarker cleaned ≤ j := by
  obtain ⟨i, hi⟩ := listIndexOf_isSome h
  have hmin := ((listIndexOf_spec m cleaned).1 i hi).2
  have hij : i ≤ j := by
    by_contra hc
    have := hmin j (by omega)
    rw [h] at this
    cases this
  have := marker_foldl_le_found cleaned usageMarkers cleaned.length m i hm hi
  exact le_trans this hij

theorem usageMarkers_ne_nil : ∀ m ∈ usageMarkers, m ≠ [] := by decide

theorem earliestMarker_lt_of_occurrence {cleaned m : List Char} {j : Nat}
    (hm : m ∈ usageMarkers) (h : m.isPrefixOf (cleaned.drop j) = true) :
    earliestMarker cleaned < cleaned.length := by
  obtain ⟨i, hi⟩ := listIndexOf_isSome h
  have hlt : i < cleaned.length := listIndexOf_lt_length (usageMarkers_ne_nil m hm) hi
  have := marker_foldl_le_found cleaned usageMarkers cleaned.length m i hm hi
  calc earliestMarker cleaned ≤ i := this
  _ < cleaned.length := hlt

/-! ## Helper lemmas: trimming produces an infix with clean edges -/

theorem dropTrailingWS_isPrefix (l : List Char) : dropTrailingWS l <+: l := by
  unfold dropTrailingWS
  rw [← List.reverse_suffix, List.reverse_reverse]
  exact List.dropWhile_suffix _

theorem jsTrimList_isInfix (l : List Char) : jsTrimList l <:+: l := by
  unfold jsTrimList
  exact (List.dropWhile_suffix isJsWS).isInfix.trans (dropTrailingWS_isPrefix l).isInfix

theorem jsTrimList_length_le (l : List Char) : (jsTrimList l).length ≤ l.length :=
  (jsTrimList_isInfix l).sublist.length_le

theorem head?_dropWhile_not {p : Char → Bool} {l : List Char} {c : Char}
    (h : (l.dropWhile p).head? = some c) : p c = false := by
  induction l with
  | nil => simp at h
  | cons x t ih =>
    rw [List.dropWhile_cons] at h
    by_cases hx : p x
    · rw [if_pos hx] at h
      exact ih h
    · rw [if_neg hx] at h
      simp at h
      subst h
      cases hb : p x with
      | false => rfl
      | true => exact absurd hb hx

theorem jsTrimList_head_not_ws {l : List Char} {c : Char}
    (h : (jsTrimList l).head? = some c) : isJsWS c = false := by
  unfold jsTrimList at h
  exact head?_dropWhile_not h

theorem getLast?_suffix {s x : List Char} (hsuf : s <:+ x) (hne : s ≠ []) :
    s.getLast? = x.getLast? := by
  obtain ⟨a, rfl⟩ := hsuf
  rw [List.getLast?_append]
  cases hg : s.getLast? with
  | none =>
    rw [List.getLast?_eq_none_iff] at hg
    exact absurd hg hne
  | some g => rfl

theorem jsTrimList_getLast_not_ws {l : List Char} {c : Char}
    (h : (jsTrimList l).getLast? = some c) : isJsWS c = false := by
  have hne : jsTrimList l ≠ [] := by
    intro he
    rw [he] at h
    cases h
  have hsuf : jsTrimList l <:+ dropTrailingWS l := by
    unfold jsTrimList
    exact List.dropWhile_suffix _
  rw [getLast?_suffix hsuf hne] at h
  unfold dropTrailingWS at h
  rw [List.getLast?_reverse] at h
  exact head?_dropWhile_not h

/-! ## Helper lemmas: assembling `cleanCopilotOutput` -/

theorem string_data_ext {a b : String} (h : a.data = b.data) : a = b := by
  cases a with
  | mk da =>
    cases b with
    | mk db => exact congrArg String.mk h

theorem cleanCopilotOutput_data (s : String) :
    (cleanCopilotOutput s).data =
      jsTrimList (if earliestMarker (cleanedOf s) < (cleanedOf s).length
        then (cleanedOf s).take (earliestMarker (cleanedOf s)) else cleanedOf s) := rfl

theorem cleanCopilotOutput_infix_cleaned (s : String) :
    (cleanCopilotOutput s).data <:+: cleanedOf s := by
  rw [cleanCopilotOutput_data]
  split
  · exact (jsTrimList_isInfix _).trans (List.take_prefix _ _).isInfix
  · exact jsTrimList_isInfix _

theorem infix_iff_prefix_drop (m l : List Char) :
    m <:+: l ↔ ∃ j, m.isPrefixOf (l.drop j) = true := by
  constructor
  · rintro ⟨u, v, rfl⟩
    refine ⟨u.length, ?_⟩
    rw [List.isPrefixOf_iff_prefix, List.append_assoc, List.drop_left]
    exact ⟨v, rfl⟩
  · rintro ⟨j, h⟩
    have hp : m <+: l.drop j := List.isPrefixOf_iff_prefix.mp h
    exact hp.isInfix.trans (List.drop_suffix j l).isInfix

/-! ## C5: the Copilot-output sanitizer -/

/-- C5 (amended): for every raw output string, the sanitized result contains
no usage-footer marker; when a marker occurs in the escape-and-CR-stripped
output, the result is cut before the earliest marker position (its length is
bounded by that position, which lies strictly inside the stripped output); the
result carries no leading or trailing whitespace. The no-ANSI guarantee holds
for inputs with at most one ESC character and no carriage return; it fails in
general because the single-pass strip can splice fragments into a new escape
sequence (see the counterexample). -/
theorem cleanCopilotOutput_spec (s : String) :
    (s.data.count '\x1B' ≤ 1 → '\r' ∉ s.data →
      ¬∃ (u params v : List Char) (a : Char),
        (cleanCopilotOutput s).data = u ++ '\x1B' :: '[' :: (params ++ a :: v) ∧
        (∀ p ∈ params, isCsiParam p = true) ∧ isAlphaAZ a = true) ∧
    (∀ m ∈ usageMarkers, ¬ m <:+: (cleanCopilotOutput s).data) ∧
    ((∃ m ∈ usageMarkers, m <:+: cleanedOf s) →
      (cleanCopilotOutput s).data.length ≤ earliestMarker (cleanedOf s) ∧
      earliestMarker (cleanedOf s) < (cleanedOf s).length) ∧
    (∀ c, (cleanCopilotOutput s).data.head? = some c → isJsWS c = false) ∧
    (∀ c, (cleanCopilotOutput s).data.getLast? = some c → isJsWS c = false) := by
  refine ⟨?_, ?_, ?_, ?_, ?_⟩
  · intro hcount hcr hex
    have h1 : hasAnsi (stripAnsi s.data) = false := hasAnsi_stripAnsi s.data hcount
    have hcl : cleanedOf s = stripAnsi s.data := by
      unfold cleanedOf
      apply List.filter_eq_self.mpr
      intro a ha
      have hmem : a ∈ s.data := (stripAnsi_sublist s.data).subset ha
      have hne : a ≠ '\r' := fun he => hcr (he ▸ hmem)
      simp [hne]
    have h2 : hasAnsi (cleanedOf s) = false := by
      rw [hcl]
      exact h1
    have h3 : hasAnsi (cleanCopilotOutput s).data = false :=
      hasAnsi_false_of_isInfix (cleanCopilotOutput_infix_cleaned s) h2
    have h4 := (hasAnsi_iff_decomposition (cleanCopilotOutput s).data).mpr hex
    rw [h4] at h3
    cases h3
  · intro m hm hinf
    by_cases hel : earliestMarker (cleanedOf s) < (cleanedOf s).length
    · rw [cleanCopilotOutput_data, if_pos hel] at hinf
      have h2 : m <:+: (cleanedOf s).take (earliestMarker (cleanedOf s)) :=
        hinf.trans (jsTrimList_isInfix _)
      obtain ⟨j, hj⟩ := (infix_iff_prefix_drop m _).mp h2
      have hj' : m.isPrefixOf ((cleanedOf s).drop j) = true := by
        rw [List.isPrefixOf_iff_prefix] at hj ⊢
        rw [List.drop_take] at hj
        exact hj.trans (List.take_prefix _ _)
      have hle : earliestMarker (cleanedOf s) ≤ j := earliestMarker_le_occurrence hm hj'
      have hmlen : m.length ≤ earliestMarker (cleanedOf s) - j := by
        rw [List.isPrefixOf_iff_prefix, List.drop_take] at hj
        calc m.length ≤
            (List.take (earliestMarker (cleanedOf s) - j) ((cleanedOf s).drop j)).length :=
              hj.length_le
          _ ≤ earliestMarker (cleanedOf s) - j := by
              rw [List.length_take]
              exact min_le_left _ _
      have hpos : 0 < m.length := List.length_pos.mpr (usageMarkers_ne_nil m hm)
      omega
    · rw [cleanCopilotOutput_data, if_neg hel] at hinf
      have h2 : m <:+: cleanedOf s := hinf.trans (jsTrimList_isInfix _)
      obtain ⟨j, hj⟩ := (infix_iff_prefix_drop m _).mp h2
      exact hel (earliestMarker_lt_of_occurrence hm hj)
  · rintro ⟨m, hm, hinf⟩
    obtain ⟨j, hj⟩ := (infix_iff_prefix_drop m _).mp hinf
    have hlt := earliestMarker_lt_of_occurrence hm hj
    refine ⟨?_, hlt⟩
    rw [cleanCopilotOutput_data, if_pos hlt]
    calc (jsTrimList ((cleanedOf s).take (earliestMarker (cleanedOf s)))).length ≤
        ((cleanedOf s).take (earliestMarker (cleanedOf s))).length := jsTrimList_length_le _
      _ ≤ earliestMarker (cleanedOf s) := by
          rw [List.length_take]
          exact min_le_left _ _
  · intro c h
    rw [cleanCopilotOutput_data] at h
    exact jsTrimList_head_not_ws h
  · intro c h
    rw [cleanCopilotOutput_data] at h
    exact jsTrimList_getLast_not_ws h

/-- C5 counterexample: on the input `ESC ESC [ 3 1 m [ 3 1 m` the single-pass
regex replacement removes the inner `ESC[31m` and splices the surrounding
fragments into `ESC[31m` — the sanitized result is itself a full ANSI escape
sequence, refuting "the sanitized result contains no ANSI terminal escape
sequences" for general inputs. -/
theorem cleanCopilotOutput_ansi_counterexample :
    cleanCopilotOutput "\x1B\x1B[31m[31m" = "\x1B[31m" ∧
    hasAnsi ("\x1B[31m".data) = true ∧
    ∃ (u params v : List Char) (a : Char),
      (cleanCopilotOutput "\x1B\x1B[31m[31m").data =
        u ++ '\x1B' :: '[' :: (params ++ a :: v) ∧
      (∀ p ∈ params, isCsiParam p = true) ∧ isAlphaAZ a = true := by
  have h0 : stripAnsi ('\x1B' :: '\x1B' :: '[' :: '3' :: '1' :: 'm' ::
      '[' :: '3' :: '1' :: 'm' :: []) = '\x1B' :: '[' :: '3' :: '1' :: 'm' :: [] := by
    rw [stripAnsi_cons, if_neg (by decide), stripAnsi_cons, if_pos (by decide)]
    rw [stripAnsi_of_no_esc (by decide)]
    decide
  have hcl : cleanedOf "\x1B\x1B[31m[31m" = '\x1B' :: '[' :: '3' :: '1' :: 'm' :: [] := by
    unfold cleanedOf
    rw [show ("\x1B\x1B[31m[31m" : String).data = '\x1B' :: '\x1B' :: '[' :: '3' :: '1' ::
      'm' :: '[' :: '3' :: '1' :: 'm' :: [] from rfl]
    rw [h0]
    decide
  have h1 : cleanCopilotOutput "\x1B\x1B[31m[31m" = "\x1B[31m" := by
    apply string_data_ext
    rw [cleanCopilotOutput_data, hcl]
    decide
  refine ⟨h1, by decide, [], ['3', '1'], [], 'm', ?_, by decide, by decide⟩
  rw [h1]
  decide

/-- C5 witness: the amended guarantees at concrete inputs — a one-ESC
carriage-return-free input yields no ANSI sequence, a marker-bearing input
yields a result without the marker, and results have clean edges. -/
theorem cleanCopilotOutput_spec_witness :
    (¬∃ (u params v : List Char) (a : Char),
      (cleanCopilotOutput " \x1B[31mRed ").data = u ++ '\x1B' :: '[' :: (params ++ a :: v) ∧
      (∀ p ∈ params, isCsiParam p = true) ∧ isAlphaAZ a = true) ∧
    (¬ ("\nTotal usage est:".data) <:+:
      (cleanCopilotOutput "hi\nTotal usage est: 42").data) ∧
    (∀ c, (cleanCopilotOutput "  x  ").data.head? = some c → isJsWS c = false) := by
  refine ⟨(cleanCopilotOutput_spec _).1 (by decide) (by decide),
    (cleanCopilotOutput_spec _).2.1 _ (by decide),
    fun c h => (cleanCopilotOutput_spec _).2.2.2.1 c h⟩

/-! ## Helper lemmas: the commit grouper -/

theorem insertByKey_join_perm (k : String) (c : CommitInfo)
    (m : List (String × List CommitInfo)) :
    (((insertByKey k c m).map Prod.snd).flatten).Perm
      (((m.map Prod.snd).flatten) ++ [c]) := by
  induction m with
  | nil =>
    simp [insertByKey]
  | cons kv rest ih =>
    obtain ⟨k', cs⟩ := kv
    rw [insertByKey]
    by_cases hk : k' = k
    · rw [if_pos hk]
      simp only [List.map_cons, List.flatten_cons]
      rw [List.append_assoc, List.append_assoc]
      exact List.Perm.append_left cs List.perm_append_comm
    · rw [if_neg hk]
      simp only [List.map_cons, List.flatten_cons]
      rw [List.append_assoc]
      exact List.Perm.append_left cs ih

theorem buildGroups_append (dk : String → String) (cs : List CommitInfo) (c : CommitInfo) :
    buildGroups dk (cs ++ [c]) = insertByKey (dk c.date) c (buildGroups dk cs) := by
  unfold buildGroups
  rw [List.foldl_append]
  rfl

theorem buildGroups_join_perm (dk : String → String) (cs : List CommitInfo) :
    (((buildGroups dk cs).map Prod.snd).flatten).Perm cs := by
  induction cs using List.reverseRecOn with
  | nil => simp [buildGroups]
  | append_singleton cs c ih =>
    rw [buildGroups_append]
    exact (insertByKey_join_perm _ _ _).trans (ih.append_right [c])

theorem insertByKey_keys (k : String) (c : CommitInfo)
    (m : List (String × List CommitInfo)) :
    (insertByKey k c m).map Prod.fst =
      if k ∈ m.map Prod.fst then m.map Prod.fst else m.map Prod.fst ++ [k] := by
  induction m with
  | nil => simp [insertByKey]
  | cons kv rest ih =>
    obtain ⟨k', cs⟩ := kv
    rw [insertByKey]
    by_cases hk : k' = k
    · rw [if_pos hk]
      subst hk
      simp
    · rw [if_neg hk]
      simp only [List.map_cons, ih]
      by_cases hm : k ∈ rest.map Prod.fst
      · simp [hm, List.mem_cons, Ne.symm hk]
      · simp [hm, List.mem_cons, Ne.symm hk]

theorem insertByKey_filter_char (dk : String → String) (c : CommitInfo)
    (cs : List CommitInfo) :
    ∀ (m : List (String × List CommitInfo)),
      (m.map Prod.fst).Nodup →
      (∀ kv ∈ m, kv.2 = cs.filter (fun x => dk x.date == kv.1)) →
      (dk c.date ∉ m.map Prod.fst → cs.filter (fun x => dk x.date == dk c.date) = []) →
      ∀ kv ∈ insertByKey (dk c.date) c m,
        kv.2 = (cs ++ [c]).filter (fun x => dk x.date == kv.1) := by
  intro m
  induction m with
  | nil =>
    intro _ _ hnone kv hkv
    simp only [insertByKey, List.mem_singleton] at hkv
    subst hkv
    rw [List.filter_append, hnone (by simp)]
    simp
  | cons kv0 rest ih =>
    obtain ⟨k0, l0⟩ := kv0
    intro hnodup hchar hnone kv hkv
    rw [insertByKey] at hkv
    by_cases hk : k0 = dk c.date
    · rw [if_pos hk] at hkv
      rcases List.mem_cons.mp hkv with rfl | hmem
      · show l0 ++ [c] = (cs ++ [c]).filter (fun x => dk x.date == k0)
        rw [List.filter_append]
        have h0 := hchar (k0, l0) (List.mem_cons_self _ _)
        rw [← h0]
        simp [← hk]
      · have hchar' := hchar kv (List.mem_cons_of_mem _ hmem)
        rw [List.filter_append, ← hchar']
        have hkey : kv.1 ∈ rest.map Prod.fst := List.mem_map_of_mem Prod.fst hmem
        have hne : kv.1 ≠ k0 := by
          intro he
          exact (List.nodup_cons.mp (by simpa using hnodup)).1 (he ▸ hkey)
        have hfc : (dk c.date == kv.1) = false := by
          rw [beq_eq_false_iff_ne, ← hk]
          exact Ne.symm hne
        simp [hfc]
    · rw [if_neg hk] at hkv
      rcases List.mem_cons.mp hkv with rfl | hmem
      · show l0 = (cs ++ [c]).filter (fun x => dk x.date == k0)
        have h0 := hchar (k0, l0) (List.mem_cons_self _ _)
        have hfc : (dk c.date == k0) = false := by
          rw [beq_eq_false_iff_ne]
          exact fun he => hk he.symm
        rw [List.filter_append]
        rw [show (([c] : List CommitInfo).filter (fun x => dk x.date == k0)) = [] from
          by simp [hfc]]
        rw [List.append_nil]
        exact h0
      · refine ih ?_ ?_ ?_ kv hmem
        · exact (List.nodup_cons.mp (by simpa using hnodup)).2
        · exact fun kv' h => hchar kv' (List.mem_cons_of_mem _ h)
        · intro hnot
          apply hnone
          simp only [List.map_cons, List.mem_cons]
          rintro (he | hin)
          · exact hk he.symm
          · exact hnot hin

theorem buildGroups_char (dk : String → String) (cs : List CommitInfo) :
    ((buildGroups dk cs).map Prod.fst).Nodup ∧
    (∀ kv ∈ buildGroups dk cs, kv.2 = cs.filter (fun x => dk x.date == kv.1)) ∧
    (∀ x ∈ cs, dk x.date ∈ (buildGroups dk cs).map Prod.fst) := by
  induction cs using List.reverseRecOn with
  | nil => simp [buildGroups]
  | append_singleton cs c ih =>
    obtain ⟨hnodup, hchar, hcov⟩ := ih
    rw [buildGroups_append]
    have hnone : dk c.date ∉ (buildGroups dk cs).map Prod.fst →
        cs.filter (fun x => dk x.date == dk c.date) = [] := by
      intro hnot
      rw [List.filter_eq_nil_iff]
      intro a ha hbeq
      have hae : dk a.date = dk c.date := by simpa using hbeq
      exact hnot (hae ▸ hcov a ha)
    refine ⟨?_, insertByKey_filter_char dk c cs _ hnodup hchar hnone, ?_⟩
    · rw [insertByKey_keys]
      split
      · exact hnodup
      · next hnot =>
        exact hnodup.append (List.nodup_singleton _) (List.disjoint_singleton.mpr hnot)
    · intro x hx
      rw [insertByKey_keys]
      rcases List.mem_append.mp hx with hx | hx
      · have hin := hcov x hx
        split
        · exact hin
        · exact List.mem_append_left _ hin
      · simp only [List.mem_singleton] at hx
        subst hx
        split
        · next hin => exact hin
        · exact List.mem_append_right _ (by simp)

/-! ## C2: the commit grouper -/

/-- C2: for every commit list (and any date-key, label and timestamp
functions, standing for the date-fns/Date library calls), `groupCommitsByDate`
returns groups whose flattening is a permutation of the input, each group an
order-preserving sublist of the input (so the input's relative order is kept
within each group), any two commits of one group sharing the same calendar-date
key, and the groups pairwise ordered by non-increasing timestamp of each
group's first commit (most recent first). -/
theorem groupCommitsByDate_spec (dateKey labelOf : String → String)
    (timeOf : String → Int) (cs : List CommitInfo) :
    ((((groupCommitsByDate dateKey labelOf timeOf cs).map
        (fun g => g.commits)).flatten).Perm cs) ∧
    (∀ g ∈ groupCommitsByDate dateKey labelOf timeOf cs, g.commits.Sublist cs) ∧
    (∀ g ∈ groupCommitsByDate dateKey labelOf timeOf cs,
      ∀ c₁ ∈ g.commits, ∀ c₂ ∈ g.commits, dateKey c₁.date = dateKey c₂.date) ∧
    ((groupCommitsByDate dateKey labelOf timeOf cs).Pairwise
      (fun a b =>
        timeOf (firstCommitDate b.commits) ≤ timeOf (firstCommitDate a.commits))) := by
  obtain ⟨hnodup, hchar, hcov⟩ := buildGroups_char dateKey cs
  have hperm : (groupCommitsByDate dateKey labelOf timeOf cs).Perm
      ((buildGroups dateKey cs).map
        (fun kv => CommitGroup.mk (labelOf (firstCommitDate kv.2)) kv.2)) :=
    List.mergeSort_perm _ _
  refine ⟨?_, ?_, ?_, ?_⟩
  · have h1 := (hperm.map (fun g => g.commits)).flatten
    have h2 : (((buildGroups dateKey cs).map
        (fun kv => CommitGroup.mk (labelOf (firstCommitDate kv.2)) kv.2)).map
          (fun g => g.commits)) = (buildGroups dateKey cs).map Prod.snd := by
      rw [List.map_map]
      rfl
    rw [h2] at h1
    exact h1.trans (buildGroups_join_perm dateKey cs)
  · intro g hg
    have hg' := List.mem_mergeSort.mp hg
    obtain ⟨kv, hkv, rfl⟩ := List.mem_map.mp hg'
    show kv.2.Sublist cs
    rw [hchar kv hkv]
    exact List.filter_sublist cs
  · intro g hg c₁ h₁ c₂ h₂
    have hg' := List.mem_mergeSort.mp hg
    obtain ⟨kv, hkv, rfl⟩ := List.mem_map.mp hg'
    rw [show (CommitGroup.mk (labelOf (firstCommitDate kv.2)) kv.2).commits = kv.2
      from rfl] at h₁ h₂
    rw [hchar kv hkv] at h₁ h₂
    have e₁ : dateKey c₁.date = kv.1 := by
      simpa using (List.mem_filter.mp h₁).2
    have e₂ : dateKey c₂.date = kv.1 := by
      simpa using (List.mem_filter.mp h₂).2
    rw [e₁, e₂]
  · have htrans : ∀ a b c : CommitGroup,
        decide (timeOf (firstCommitDate b.commits) ≤ timeOf (firstCommitDate a.commits))
          = true →
        decide (timeOf (firstCommitDate c.commits) ≤ timeOf (firstCommitDate b.commits))
          = true →
        decide (timeOf (firstCommitDate c.commits) ≤ timeOf (firstCommitDate a.commits))
          = true := by
      intro a b c hab hbc
      rw [decide_eq_true_eq] at hab hbc ⊢
      exact le_trans hbc hab
    have htotal : ∀ a b : CommitGroup,
        (decide (timeOf (firstCommitDate b.commits) ≤ timeOf (firstCommitDate a.commits)) ||
          decide (timeOf (firstCommitDate a.commits) ≤ timeOf (firstCommitDate b.commits)))
          = true := by
      intro a b
      rw [Bool.or_eq_true, decide_eq_true_eq, decide_eq_true_eq]
      exact le_total _ _
    have hsorted := @List.sorted_mergeSort CommitGroup
      (fun a b =>
        decide (timeOf (firstCommitDate b.commits) ≤ timeOf (firstCommitDate a.commits)))
      htrans htotal
      ((buildGroups dateKey cs).map
        (fun kv => CommitGroup.mk (labelOf (firstCommitDate kv.2)) kv.2))
    exact hsorted.imp (fun h => of_decide_eq_true h)

/-- C2 witness: the grouping properties applied at a concrete two-day,
three-commit list with concrete key, label and timestamp functions. -/
theorem groupCommitsByDate_spec_witness :
    ((((groupCommitsByDate (fun d => d) (fun d => d) (fun _ => 0)
        [mkDatedCommit "d1", mkDatedCommit "d2", mkDatedCommit "d1"]).map
          (fun g => g.commits)).flatten).Perm
      [mkDatedCommit "d1", mkDatedCommit "d2", mkDatedCommit "d1"]) ∧
    (∀ g ∈ groupCommitsByDate (fun d => d) (fun d => d) (fun _ => 0)
        [mkDatedCommit "d1", mkDatedCommit "d2", mkDatedCommit "d1"],
      g.commits.Sublist [mkDatedCommit "d1", mkDatedCommit "d2", mkDatedCommit "d1"]) := by
  have h := groupCommitsByDate_spec (fun d => d) (fun d => d) (fun _ => 0)
    [mkDatedCommit "d1", mkDatedCommit "d2", mkDatedCommit "d1"]
  exact ⟨h.1, h.2.1⟩
